import Mathlib

/-!
Verification of the node-web-modules MVC layer.

Each JavaScript class of the repository is shallowly embedded as Lean
definitions: JS objects become association lists of properties, stateful
methods become explicit state-passing functions, callback invocations are
recorded as event lists, and exceptions are modelled with explicit error
values.  The theorems at the end of the file settle the frozen claims
about the specification.
-/

set_option autoImplicit false

namespace WebModules

/-- A primitive JavaScript value, as used for request parameters and
command properties. -/
inductive JsVal where
  | vnull
  | vundef
  | vstr (s : String)
  | vnum (n : Int)
  | vbool (b : Bool)
deriving DecidableEq, Repr

/-- JavaScript truthiness: `null`, `undefined`, the empty string, `0` and
`false` are falsy. -/
def JsVal.falsy : JsVal → Bool
  | .vnull => true
  | .vundef => true
  | .vstr s => s == ""
  | .vnum n => n == 0
  | .vbool b => !b

/-- A JavaScript object: its own enumerable properties in insertion
order. -/
structure Obj where
  props : List (String × JsVal)
deriving DecidableEq, Repr

/-- The `name in o` restricted to own properties (`o.hasOwnProperty(name)`). -/
def Obj.hasProp (o : Obj) (k : String) : Bool :=
  o.props.any (fun p => p.1 == k)

/-- Property read `o[name]`; `none` when the property is absent. -/
def Obj.getProp (o : Obj) (k : String) : Option JsVal :=
  (o.props.find? (fun p => p.1 == k)).map (fun p => p.2)

/-- Property write `o[name] = v`: updates the value in place when the key
exists (keeping insertion order) and appends a new property otherwise. -/
def Obj.setProp (o : Obj) (k : String) (v : JsVal) : Obj :=
  if o.hasProp k then
    ⟨o.props.map (fun p => if p.1 == k then (k, v) else p)⟩
  else
    ⟨o.props ++ [(k, v)]⟩

/-- The empty object literal. -/
def Obj.empty : Obj := ⟨[]⟩

/-- The `pre` is a prefix of `s` (on character lists). -/
def isPre : List Char → List Char → Bool
  | [], _ => true
  | _ :: _, [] => false
  | a :: as, b :: bs => a == b && isPre as bs

/-- Replace the first occurrence of `pat` inside `s` by `sub`, on
character lists; the string is returned unchanged when `pat` does not
occur.  This is JavaScript `String.prototype.replace` with a string
pattern. -/
def replF (s pat sub : List Char) : List Char :=
  match s with
  | [] => if isPre pat [] then sub else []
  | c :: rest =>
    if isPre pat s then sub ++ List.drop pat.length s
    else c :: replF rest pat sub

/-- JavaScript `s.replace(pat, sub)` for a string pattern: only the first
occurrence is replaced. -/
def replaceFirst (s pat sub : String) : String :=
  ⟨replF s.data pat.data sub.data⟩

/-- JavaScript `s.indexOf(pre) === 0`: the string `s` starts with `pre`. -/
def strStarts (pre s : String) : Bool :=
  isPre pre.data s.data

/-- The `WebModules.Redirect`: target path, HTTP status (`status || 302`) and
replacement options. -/
structure Redirect where
  path : String
  status : Nat
  options : Obj
deriving DecidableEq, Repr

/-- The `WebModules.Redirect` constructor: the status defaults to 302 when
absent or falsy (`status || 302`), the options default to `{ }`. -/
def Redirect.new (target : String) (status : Option Nat) (options : Option Obj) :
    Redirect :=
  ⟨target,
   match status with
   | some s => if s = 0 then 302 else s
   | none => 302,
   options.getD Obj.empty⟩

/-- Data held by a `Model`: the default empty object, a plain value, or a
redirect object stored as data. -/
inductive MData where
  | emptyObj
  | js (v : JsVal)
  | rd (r : Redirect)
deriving DecidableEq, Repr

/-- The `WebModules.Model`: model data plus the deferred-result state, namely
the wait-list of registered callbacks (identified by numbers) and the
`deferred` flag.  A callback invocation is recorded as its identifier. -/
structure Model where
  data : MData
  options : MData
  callbacks : List Nat
  deferred : Bool
deriving DecidableEq, Repr

/-- The `WebModules.Model` constructor: `data` is `theData || { }`, the
callback list starts empty and the model starts not deferred. -/
def Model.new (theData : Option MData) : Model :=
  { data :=
      match theData with
      | none => .emptyObj
      | some .emptyObj => .emptyObj
      | some (.js v) => if v.falsy then .emptyObj else .js v
      | some (.rd r) => .rd r,
    options := .emptyObj,
    callbacks := [],
    deferred := false }

/-- The `Model#notify`: triggers every callback of the wait list, in
registration order.  Returns the invoked callbacks. -/
def Model.notify (m : Model) : List Nat := m.callbacks

/-- The `Model#defer`: marks the request as deferred. -/
def Model.defer (m : Model) : Model := { m with deferred := true }

/-- The `Model#resume`: notifies the wait list only when the model is
deferred.  Returns the list of invoked callbacks. -/
def Model.resume (m : Model) : List Nat :=
  if m.deferred then m.notify else []

/-- The `Model#wait`: pushes the callback and, when the model is not deferred,
immediately notifies the whole wait list (including the new callback).
Returns the updated model and the invoked callbacks. -/
def Model.wait (m : Model) (cb : Nat) : Model × List Nat :=
  let m2 := { m with callbacks := m.callbacks ++ [cb] }
  (m2, if m2.deferred then [] else m2.notify)

/-- Sequential `wait` calls, concatenating the callback invocations each
call triggers. -/
def waitSeq : Model → List Nat → Model × List Nat
  | m, [] => (m, [])
  | m, cb :: rest =>
    let r1 := m.wait cb
    let r2 := waitSeq r1.1 rest
    (r2.1, r1.2 ++ r2.2)

/-- Weight of each occurrence of `x` in `l`: an occurrence at position `j`
counts `l.length - j`.  This is the number of times the callback at that
position is re-notified by the remaining `wait` calls. -/
def weightedCount (x : Nat) : List Nat → Nat
  | [] => 0
  | cb :: rest => (if cb = x then rest.length + 1 else 0) + weightedCount x rest

/-- The `WebModules.ModelAndView`: a view name, a model (never absent) and the
private redirect field. -/
structure ModelAndView where
  viewName : Option String
  model : Model
  redirect : Option Redirect
deriving DecidableEq, Repr

/-- The `WebModules.ModelAndView` constructor: the model defaults to a
fresh `new Model()` (`theModel || new WebModules.Model()`) and no redirect
is followed initially. -/
def ModelAndView.new (theViewName : Option String) (theModel : Option Model) :
    ModelAndView :=
  ⟨theViewName, theModel.getD (Model.new none), none⟩

/-- The `ModelAndView#sendRedirect`: stores the redirect to follow (a null
argument clears it). -/
def ModelAndView.sendRedirect (mav : ModelAndView) (r : Option Redirect) :
    ModelAndView :=
  { mav with redirect := r }

/-- The `ModelAndView#getRedirect`: returns the stored redirect, `none` by
default. -/
def ModelAndView.getRedirect (mav : ModelAndView) : Option Redirect :=
  mav.redirect

/-- Modelled from the spec: `WebModules.extend` is defined in `Utils.js`,
which is not present under `src/`.  Per the spec it is the "shallow
object-property copying" helper: every own property of the source object
is assigned onto the destination object (later assignments overriding
earlier values) and the destination is returned. -/
def extendObj (dst src : Obj) : Obj :=
  src.props.foldl (fun d p => d.setProp p.1 p.2) dst

/-- The merged `fields` object built by `ObjectDataBinder#bind`: starting
from `{ }`, every non-falsy `params` argument is copied in with
`WebModules.extend`. -/
def mergeFields (ps : List (Option Obj)) : Obj :=
  ps.foldl
    (fun acc po =>
      match po with
      | some o => extendObj acc o
      | none => acc)
    Obj.empty

/-- One step of the binding loop of `ObjectDataBinder#bind`: the property
is written onto the host only when the host already owns a property of
that name. -/
def bindStep (h : Obj) (p : String × JsVal) : Obj :=
  if h.hasProp p.1 then h.setProp p.1 p.2 else h

/-- The `WebModules.ObjectDataBinder#bind`: merges the parameter objects into
a fresh `fields` object, then sets `host[name] = fields[name]` for every
own property of `fields` that the host also owns.  The (mutated) host is
the return value. -/
def objectDataBind (host : Obj) (ps : List (Option Obj)) : Obj :=
  (mergeFields ps).props.foldl bindStep host

/-- Modelled from the spec: `WebModules.bind` lives in `Utils.js`, which
is not present under `src/`.  Per the spec's "shallow object-property
copying for data binding" it binds one parameter object onto the host via
the `ObjectDataBinder` copy. -/
def wmBind (host : Obj) (params : Option Obj) : Obj :=
  objectDataBind host [params]

/-- The `CommandController` constructor options; `none` models an `undefined`
entry. -/
structure CtrlOptions where
  bindRouteParams : Option Bool
  bindRequestParams : Option Bool
  bindRequestBody : Option Bool
  bindCookies : Option Bool
deriving DecidableEq, Repr

/-- An options object with every entry `undefined`. -/
def defaultOpts : CtrlOptions := ⟨none, none, none, none⟩

/-- The `(options.bindRouteParams !== undefined) ? options.bindRouteParams :
true`. -/
def effBindRouteParams (o : CtrlOptions) : Bool := o.bindRouteParams.getD true

/-- The `(options.bindRequestParams !== undefined) ? options.bindRequestParams
: true`. -/
def effBindRequestParams (o : CtrlOptions) : Bool := o.bindRequestParams.getD true

/-- The `(options.bindRequestBody !== undefined) ? options.bindRequestBody :
true`. -/
def effBindRequestBody (o : CtrlOptions) : Bool := o.bindRequestBody.getD true

/-- The `(options.bindCookies !== undefined) ? options.bindCookies : false`. -/
def effBindCookies (o : CtrlOptions) : Bool := o.bindCookies.getD false

/-- The request data relevant to `CommandController#handle`: route
parameters, query parameters, body and cookies; `none` models an absent
(`undefined`) collection. -/
structure Request where
  params : Option Obj
  query : Option Obj
  body : Option Obj
  cookies : Option Obj
deriving DecidableEq, Repr

/-- JavaScript string coercion of a primitive value, as applied by
`String.prototype.replace`. -/
def jsValToString : JsVal → String
  | .vnull => "null"
  | .vundef => "undefined"
  | .vstr s => s
  | .vnum n => toString n
  | .vbool b => if b then "true" else "false"

/-- The `CommandController`'s private `parseViewName`: starts from
`viewName || ""` and replaces each `:property` placeholder with the
property's value, for every own property of `params`. -/
def parseViewName (viewName : Option String) (params : Obj) : String :=
  params.props.foldl
    (fun acc p => replaceFirst acc (":" ++ p.1) (jsValToString p.2))
    (viewName.getD "")

/-- A command execution result: `instanceof WebModules.Model`,
`instanceof WebModules.Redirect`, or any other value. -/
inductive CmdResult where
  | model (m : Model)
  | redirect (r : Redirect)
  | other (v : JsVal)
deriving Repr

/-- Events recorded while a controller handles a request: construction of
the command via the factory and invocation of its `execute` operation. -/
inductive HEv where
  | createCmd
  | execCmd
deriving DecidableEq, Repr

/-- Result of `CommandController#handle`: the returned `ModelAndView`, the
command object after data binding (the one `execute` is invoked on), and
the recorded events. -/
structure HandleResult where
  mav : ModelAndView
  boundCmd : Obj
  events : List HEv
deriving Repr

/-- The `WebModules.CommandController#handle`: constructs the command through
the factory, binds route parameters, request parameters, request body and
cookies according to the options, invokes `execute` through
`handleInternal`, and wraps the result: a `Model` is paired with the
parsed view name, a `Redirect` is installed on an argumentless
`ModelAndView` via `sendRedirect`, and any other value is wrapped in a
fresh `Model`.  The `params` object passed to `parseViewName` is the
never-populated local `var params = { }`. -/
def commandHandle (opts : CtrlOptions) (createCommand : Request → Obj)
    (execute : Obj → CmdResult) (req : Request) (viewName : Option String) :
    HandleResult :=
  let c0 := createCommand req
  let c1 := if effBindRouteParams opts then wmBind c0 req.params else c0
  let c2 := if effBindRequestParams opts then wmBind c1 req.query else c1
  let c3 := if effBindRequestBody opts then wmBind c2 req.body else c2
  let c4 := if effBindCookies opts then wmBind c3 req.cookies else c3
  let mav :=
    match execute c4 with
    | .model m => ModelAndView.new (some (parseViewName viewName Obj.empty)) (some m)
    | .redirect r => (ModelAndView.new none none).sendRedirect (some r)
    | .other v =>
      ModelAndView.new (some (parseViewName viewName Obj.empty))
        (some (Model.new (some (.js v))))
  ⟨mav, c4, [.createCmd, .execCmd]⟩

/-- Result of `MessageController#handle`: the returned model, the bound
command object and the recorded events. -/
structure MessageHandleResult where
  result : Model
  boundCmd : Obj
  events : List HEv
deriving Repr

/-- The `WebModules.MessageController#handle`: constructs the command from the
message, binds the message onto it with an `ObjectDataBinder`, invokes
`execute`, and wraps any result that is not a `Model` instance in a fresh
`Model`. -/
def messageHandle (createCommand : Obj → Obj) (execute : Obj → CmdResult)
    (message : Obj) : MessageHandleResult :=
  let c0 := createCommand message
  let c1 := objectDataBind c0 [some message]
  let result :=
    match execute c1 with
    | .model m => m
    | .redirect r => Model.new (some (.rd r))
    | .other v => Model.new (some (.js v))
  ⟨result, c1, [.createCmd, .execCmd]⟩

/-- Behaviour of a filter's `execute(req, res, chain)`: invoke
`chain.next()`, invoke `chain.stop()`, throw an exception (identified by a
number), or return without touching the chain. -/
inductive FilterAction where
  | next
  | stop
  | throwErr (e : Nat)
  | idle
deriving DecidableEq, Repr

/-- How a run of `processFilters` ends: the chain completed and the
callback was invoked with `cancel = false`; some filter stopped the chain
(`callback(true)`); some filter threw (`callback(true, cause)`); or some
filter returned without delegating, leaving the request unanswered. -/
inductive ChainExit where
  | completed
  | cancelled
  | thrown (e : Nat)
  | hung
deriving DecidableEq, Repr

/-- The filter-chain iteration of `RequestHandler`'s `processFilters`:
executes filters sequentially (each executed filter is collected) and
reports how the chain ended. -/
def chainExec : List FilterAction → List FilterAction × ChainExit
  | [] => ([], ChainExit.completed)
  | f :: rest =>
    match f with
    | FilterAction.next =>
      let r := chainExec rest
      (FilterAction.next :: r.1, r.2)
    | FilterAction.stop => ([FilterAction.stop], ChainExit.cancelled)
    | FilterAction.throwErr e => ([FilterAction.throwErr e], ChainExit.thrown e)
    | FilterAction.idle => ([FilterAction.idle], ChainExit.hung)

/-- The flattening loop at the top of `processFilters`: the sparse array
of order buckets is concatenated into a single filter list, in ascending
index order; holes contribute nothing. -/
def flattenFilters {F : Type} (buckets : List (Option (List F))) : List F :=
  buckets.foldl (fun acc b => acc ++ b.getD []) []

/-- Observable events of `RequestHandler#dispatch` when the continuation
function returns normally: filter executions, the call to `this.handle`,
and the continuation invocations `next()`, `next(\x7b error \x7d)` and
`next(\x7b cancel: true \x7d)`. -/
inductive DEv where
  | exec (f : FilterAction)
  | handleCall
  | nextPlain
  | nextError (e : Nat)
  | nextCancel
deriving DecidableEq, Repr

/-- The `RequestHandler#dispatch` against a non-throwing continuation: an
invalid endpoint is rejected with `next()`; otherwise the flattened filter
chain runs and the final callback either invokes `handle`, reports the
cancellation, or reports the error followed by the cancellation (the
error branch falls through to the cancel branch). -/
def dispatchTrace (valid : Bool) (buckets : List (Option (List FilterAction))) :
    List DEv :=
  if valid then
    match chainExec (flattenFilters buckets) with
    | (ex, ChainExit.completed) => ex.map DEv.exec ++ [DEv.handleCall]
    | (ex, ChainExit.cancelled) => ex.map DEv.exec ++ [DEv.nextCancel]
    | (ex, ChainExit.thrown e) =>
      ex.map DEv.exec ++ [DEv.nextError e, DEv.nextCancel]
    | (ex, ChainExit.hung) => ex.map DEv.exec
  else [DEv.nextPlain]

/-- Observable events of `Module#dispatch`: filter executions, the call to
the controller's `handle`, the continuation invocations (the continuation
of `Module#dispatch` throws `info.error` when invoked with an error), and
the outer `next()` call when no endpoint matches. -/
inductive MEv where
  | exec (f : FilterAction)
  | handleCall
  | nextError (e : Nat)
  | nextCancel
  | outerNext
deriving DecidableEq, Repr

/-- The `Module#dispatch` over the endpoint list (each endpoint reduced to
whether `requestHandler.validate` accepts the request), with the module's
filter chain `fs`.  The second component is the exception escaping
`Module#dispatch`, if any: when a filter throws, the continuation passed
by `processNextEndpoint` receives `\x7b error \x7d` and rethrows it; the
rethrow is caught again by every enclosing filter frame's `catch`, which
reports the error to the continuation once more, so the continuation is
invoked once per executed filter before the exception escapes. -/
def moduleDispatch (fs : List FilterAction) : List Bool → List MEv × Option Nat
  | [] => ([MEv.outerNext], none)
  | v :: rest =>
    if v then
      match chainExec fs with
      | (ex, ChainExit.completed) => (ex.map MEv.exec ++ [MEv.handleCall], none)
      | (ex, ChainExit.cancelled) => (ex.map MEv.exec ++ [MEv.nextCancel], none)
      | (ex, ChainExit.thrown e) =>
        (ex.map MEv.exec ++ List.replicate ex.length (MEv.nextError e), some e)
      | (ex, ChainExit.hung) => (ex.map MEv.exec, none)
    else moduleDispatch fs rest

/-- The bucket stored at an order index of the sparse filter array
(`none` for a hole or an index past the end). -/
def bucketAt {F : Type} : List (Option (List F)) → Nat → Option (List F)
  | [], _ => none
  | b :: _, 0 => b
  | _ :: rest, n + 1 => bucketAt rest n

/-- The `Module#filter(filter, order)`: the effective index is `order` when
given and the current array length otherwise; the array grows as needed
(new positions are holes), a missing bucket becomes `[]`, and the filter
is pushed at the end of the bucket. -/
def filterAdd {F : Type} (fs : List (Option (List F))) (f : F)
    (order : Option Nat) : List (Option (List F)) :=
  let i := order.getD fs.length
  let fs2 := fs ++ List.replicate (i + 1 - fs.length) none
  fs2.set i (some ((bucketAt fs i).getD [] ++ [f]))

/-- The server type of a module. -/
inductive ServerType where
  | express
  | websocket
deriving DecidableEq, Repr

/-- A module description held by `ModuleManager`: the module's context
path and server type, the `initialized` flag of the description, and a
ghost counter of how many times `module.init` has been invoked. -/
structure ModDesc where
  contextPath : String
  serverType : ServerType
  initialized : Bool
  initCount : Nat
deriving DecidableEq, Repr

/-- External stimuli of `ModuleManager`: `register(module)` and an
incoming request routed through the `app.all("*")` front controller. -/
inductive MMEvent where
  | register (cp : String) (ty : ServerType)
  | request (path : String)
deriving DecidableEq, Repr

/-- The description pushed by `configureModule`: `initialized` starts
false; a WebSocket module's `init` is invoked immediately at registration
(so its ghost counter starts at one), an Express module's is not. -/
def freshDesc (cp : String) (ty : ServerType) : ModDesc :=
  { contextPath := cp, serverType := ty, initialized := false,
    initCount := if ty = ServerType.websocket then 1 else 0 }

/-- One `ModuleManager` step.  `configureModule` pushes a description with
`initialized: false` and immediately calls `init` on WebSocket modules
(leaving the flag false).  The front controller, on each request, calls
`init` on every module whose context path is a prefix of the request path
and whose description is not yet marked initialized, then marks it. -/
def mmStep (st : List ModDesc) : MMEvent → List ModDesc
  | MMEvent.register cp ty => st ++ [freshDesc cp ty]
  | MMEvent.request p =>
    st.map (fun d =>
      if strStarts d.contextPath p && !d.initialized then
        { d with initialized := true, initCount := d.initCount + 1 }
      else d)

/-- A run of `ModuleManager` over a list of events. -/
def mmRun (st : List ModDesc) : List MMEvent → List ModDesc
  | [] => st
  | e :: rest => mmRun (mmStep st e) rest

/-- Invariant of the `ModuleManager` state: an Express module has been
initialized at most once, and exactly once when its description is marked
initialized; a WebSocket module has been initialized once at registration
and a second time exactly when its description is marked initialized. -/
def mmInv (st : List ModDesc) : Prop :=
  ∀ d ∈ st,
    (d.serverType = ServerType.express →
      d.initCount ≤ 1 ∧ (d.initialized = true ↔ d.initCount = 1)) ∧
    (d.serverType = ServerType.websocket →
      d.initCount = if d.initialized then 2 else 1)

/-- Whether an event is a request whose path starts with the given
context path. -/
def requestMatches (cp : String) : MMEvent → Bool
  | MMEvent.request p => strStarts cp p
  | MMEvent.register _ _ => false

/-- Whether an event is an incoming request. -/
def isRequestEvent : MMEvent → Bool
  | MMEvent.request _ => true
  | MMEvent.register _ _ => false

/-- The route-matching data of an endpoint produced by
`Module`'s `registerRoute`: the route path and the pattern source. -/
structure RHEndpoint where
  path : String
  pattern : String
deriving DecidableEq, Repr

/-- The `registerRoute` stores `new RegExp("^" + path + "$")` next to the
path. -/
def registerRouteEndpoint (path : String) : RHEndpoint :=
  ⟨path, "^" ++ path ++ "$"⟩

/-- The `ExpressRequestHandler#validate`: the request pathname with the first
occurrence of `req.modulePath` removed (`pathname.replace(modulePath,
"")`), defaulting to `"/"` when the result is empty, is tested against the
endpoint's pattern.  The regular-expression engine is abstracted as a
`test` function on the pattern source. -/
def expressValidate (test : String → String → Bool) (endpoint : RHEndpoint)
    (modulePath pathname : String) : Bool :=
  let path := replaceFirst pathname modulePath ""
  test endpoint.pattern (if path = "" then "/" else path)

/-- Rendering of the claim's words, for comparison with
`expressValidate`: the request's pathname "with the module's context path
prefix removed (or `/` if the remainder is empty)" is tested against the
pattern; a pathname that does not start with the context path keeps no
prefix to remove. -/
def prefixRemovalValidate (test : String → String → Bool)
    (endpoint : RHEndpoint) (modulePath pathname : String) : Bool :=
  let rem :=
    if strStarts modulePath pathname then
      ⟨pathname.data.drop modulePath.data.length⟩
    else pathname
  test endpoint.pattern (if rem = "" then "/" else rem)

/-- A regular-expression `test` for anchored metacharacter-free patterns:
`^lit$` matches exactly the string `lit`. -/
def literalRegexTest (pat s : String) : Bool :=
  pat == "^" ++ s ++ "$"

/-! ### Helper lemmas -/

theorem isPre_append (l r : List Char) : isPre l (l ++ r) = true := by
  induction l with
  | nil => rfl
  | cons c rest ih => simp [isPre, ih]

theorem replF_of_isPre (s pat sub : List Char) (h : isPre pat s = true) :
    replF s pat sub = sub ++ List.drop pat.length s := by
  cases s with
  | nil =>
    cases pat with
    | nil => simp [replF, isPre]
    | cons a as => simp [isPre] at h
  | cons c rest => simp [replF, h]

theorem replaceFirst_at_start (cp rest : String) :
    replaceFirst (cp ++ rest) cp "" = rest := by
  have hd : (cp ++ rest).data = cp.data ++ rest.data := rfl
  unfold replaceFirst
  rw [hd, replF_of_isPre (cp.data ++ rest.data) cp.data []
    (isPre_append cp.data rest.data)]
  simp [List.drop_left]

theorem chainExec_completed_iff (fs : List FilterAction) :
    (chainExec fs).2 = ChainExit.completed ↔
      ∀ f ∈ fs, f = FilterAction.next := by
  induction fs with
  | nil => simp [chainExec]
  | cons f rest ih => cases f <;> simp [chainExec, ih]

theorem chainExec_of_all_next (fs : List FilterAction)
    (h : ∀ f ∈ fs, f = FilterAction.next) :
    chainExec fs = (fs, ChainExit.completed) := by
  induction fs with
  | nil => rfl
  | cons f rest ih =>
    have hf : f = FilterAction.next := h f (by simp)
    subst hf
    have h2 := ih (fun g hg => h g (by simp [hg]))
    simp [chainExec, h2]

theorem chainExec_stop_mem_iff (fs : List FilterAction) :
    FilterAction.stop ∈ (chainExec fs).1 ↔
      (chainExec fs).2 = ChainExit.cancelled := by
  induction fs with
  | nil => simp [chainExec]
  | cons f rest ih => cases f <;> simp [chainExec, ih]

theorem chainExec_thrown_mem (fs : List FilterAction) (e : Nat)
    (h : (chainExec fs).2 = ChainExit.thrown e) :
    FilterAction.throwErr e ∈ (chainExec fs).1 := by
  induction fs with
  | nil => simp [chainExec] at h
  | cons f rest ih =>
    cases f <;> simp_all [chainExec]

/-! ### Claim theorems -/

/-- C1: for a request dispatched through `RequestHandler#dispatch` with a
valid endpoint, the controller's `handle` is invoked exactly when every
filter of the flattened filter list invoked the chain's `next()` (none
invoked `stop()`, threw, or dropped the chain); in that case every filter
executes before `handle`; and when some executed filter invoked `stop()`,
`handle` is never invoked and the continuation is called with the cancel
indication. -/
theorem requestHandler_dispatch_filter_chain
    (buckets : List (Option (List FilterAction))) :
    (DEv.handleCall ∈ dispatchTrace true buckets ↔
      ∀ f ∈ flattenFilters buckets, f = FilterAction.next) ∧
    ((∀ f ∈ flattenFilters buckets, f = FilterAction.next) →
      dispatchTrace true buckets
        = (flattenFilters buckets).map DEv.exec ++ [DEv.handleCall]) ∧
    (FilterAction.stop ∈ (chainExec (flattenFilters buckets)).1 →
      DEv.handleCall ∉ dispatchTrace true buckets ∧
        DEv.nextCancel ∈ dispatchTrace true buckets) := by
  rcases hx : chainExec (flattenFilters buckets) with ⟨ex, exit⟩
  have hiff := chainExec_completed_iff (flattenFilters buckets)
  have hstop := chainExec_stop_mem_iff (flattenFilters buckets)
  rw [hx] at hiff hstop
  cases exit with
  | completed =>
    refine ⟨?_, ?_, ?_⟩
    · simp only [dispatchTrace, if_true, hx]
      simp [hiff.symm]
    · intro hall
      have h2 := chainExec_of_all_next (flattenFilters buckets) hall
      rw [hx] at h2
      have hex : ex = flattenFilters buckets := congrArg Prod.fst h2
      simp [dispatchTrace, hx, hex]
    · intro hmem
      exact absurd (hstop.1 hmem) (by simp)
  | cancelled =>
    refine ⟨?_, ?_, ?_⟩
    · simp only [dispatchTrace, if_true, hx]
      constructor
      · intro hmem; simp at hmem
      · intro hall; exact absurd (hiff.2 hall) (by simp)
    · intro hall; exact absurd (hiff.2 hall) (by simp)
    · intro _; simp [dispatchTrace, hx]
  | thrown e =>
    refine ⟨?_, ?_, ?_⟩
    · simp only [dispatchTrace, if_true, hx]
      constructor
      · intro hmem; simp at hmem
      · intro hall; exact absurd (hiff.2 hall) (by simp)
    · intro hall; exact absurd (hiff.2 hall) (by simp)
    · intro hmem; exact absurd (hstop.1 hmem) (by simp)
  | hung =>
    refine ⟨?_, ?_, ?_⟩
    · simp only [dispatchTrace, if_true, hx]
      constructor
      · intro hmem; simp at hmem
      · intro hall; exact absurd (hiff.2 hall) (by simp)
    · intro hall; exact absurd (hiff.2 hall) (by simp)
    · intro hmem; exact absurd (hstop.1 hmem) (by simp)

/-- Witness for C1 at a concrete bucket list whose filters all delegate to
the next filter. -/
theorem requestHandler_dispatch_filter_chain_witness :
    DEv.handleCall ∈ dispatchTrace true
      [some [FilterAction.next], none, some [FilterAction.next]] :=
  (requestHandler_dispatch_filter_chain
    [some [FilterAction.next], none, some [FilterAction.next]]).1.2 (by decide)

/-- C4: when a filter of the chain throws, `Module#dispatch`'s
continuation receives the error, the controller's `handle` is never
invoked for the request, and the error escapes (is rethrown by)
`Module#dispatch`; there is no recovery. -/
theorem module_dispatch_filter_error_propagation
    (fs : List FilterAction) (vs : List Bool) (e : Nat)
    (h1 : (chainExec fs).2 = ChainExit.thrown e) (h2 : true ∈ vs) :
    (moduleDispatch fs vs).2 = some e ∧
    MEv.handleCall ∉ (moduleDispatch fs vs).1 ∧
    MEv.nextError e ∈ (moduleDispatch fs vs).1 := by
  induction vs with
  | nil => simp at h2
  | cons v rest ih =>
    cases v with
    | false =>
      have h3 : true ∈ rest := by simpa using h2
      simpa [moduleDispatch] using ih h3
    | true =>
      rcases hx : chainExec fs with ⟨ex, exit⟩
      rw [hx] at h1
      subst h1
      have hne : ex ≠ [] := by
        have hmem := chainExec_thrown_mem fs e (by rw [hx])
        rw [hx] at hmem
        exact List.ne_nil_of_mem hmem
      refine ⟨?_, ?_, ?_⟩
      · simp [moduleDispatch, hx]
      · simp [moduleDispatch, hx, List.mem_replicate]
      · simp only [moduleDispatch, if_true, hx]
        refine List.mem_append.2 (Or.inr ?_)
        exact List.mem_replicate.2 ⟨by simpa using hne, rfl⟩

/-- Witness for C4: the second filter throws error 7, after an invalid
endpoint is skipped. -/
theorem module_dispatch_filter_error_propagation_witness :
    (moduleDispatch [FilterAction.next, FilterAction.throwErr 7]
        [false, true]).2 = some 7 ∧
    MEv.handleCall ∉ (moduleDispatch [FilterAction.next, FilterAction.throwErr 7]
        [false, true]).1 ∧
    MEv.nextError 7 ∈ (moduleDispatch [FilterAction.next, FilterAction.throwErr 7]
        [false, true]).1 :=
  module_dispatch_filter_error_propagation
    [FilterAction.next, FilterAction.throwErr 7] [false, true] 7
    (by decide) (by decide)

/-- C2: `Model#wait` stores the callback; on a non-deferred model it
synchronously notifies the whole wait list (including the new callback),
while on a deferred model it invokes nothing and a later `resume` invokes
every stored callback; `resume` on a model that was never deferred (its
flag, set only by `defer`, is still false) invokes no callbacks. -/
theorem model_defer_resume_wait (m : Model) (cb : Nat) :
    ((m.wait cb).1.callbacks = m.callbacks ++ [cb]) ∧
    ((m.wait cb).1.deferred = m.deferred) ∧
    ((m.wait cb).2 = if m.deferred then [] else m.callbacks ++ [cb]) ∧
    (m.deferred = false → cb ∈ (m.wait cb).2) ∧
    (m.deferred = true →
      (m.wait cb).2 = [] ∧ ((m.wait cb).1).resume = m.callbacks ++ [cb]) ∧
    (m.deferred = false → m.resume = []) ∧
    ((m.defer).deferred = true ∧ (m.defer).callbacks = m.callbacks ∧
      (m.defer).resume = m.callbacks) := by
  cases hd : m.deferred <;>
    simp [Model.wait, Model.resume, Model.defer, Model.notify, hd]

/-- Witness for C2: a `wait` on a concrete non-deferred model invokes the
new callback synchronously. -/
theorem model_defer_resume_wait_witness :
    7 ∈ (Model.wait ⟨MData.emptyObj, MData.emptyObj, [5], false⟩ 7).2 :=
  (model_defer_resume_wait ⟨MData.emptyObj, MData.emptyObj, [5], false⟩ 7).2.2.2.1 rfl

theorem waitSeq_count (l : List Nat) : ∀ (m : Model), m.deferred = false →
    ∀ x, ((waitSeq m l).2).count x
      = l.length * m.callbacks.count x + weightedCount x l := by
  induction l with
  | nil => intro m hm x; simp [waitSeq, weightedCount]
  | cons cb rest ih =>
    intro m hm x
    have h2 : (waitSeq m (cb :: rest)).2
        = (m.callbacks ++ [cb])
          ++ (waitSeq { m with callbacks := m.callbacks ++ [cb] } rest).2 := by
      simp [waitSeq, Model.wait, Model.notify, hm]
    rw [h2, List.count_append,
      ih { m with callbacks := m.callbacks ++ [cb] } hm x]
    simp only [List.count_append, List.length_cons, weightedCount]
    by_cases hcb : cb = x
    · subst hcb
      simp [List.count_singleton]
      ring
    · have hxcb : ¬(x = cb) := fun h => hcb h.symm
      simp [List.count_singleton', hcb, hxcb]
      ring

theorem weightedCount_append (x : Nat) (l1 l2 : List Nat) :
    weightedCount x (l1 ++ l2)
      = weightedCount x l1 + l2.length * l1.count x + weightedCount x l2 := by
  induction l1 with
  | nil => simp [weightedCount]
  | cons c rest ih =>
    simp only [List.cons_append, weightedCount, List.length_append,
      List.count_cons, List.append_eq, beq_iff_eq]
    rw [ih]
    by_cases hc : c = x
    · simp only [if_pos hc]
      ring
    · simp only [if_neg hc]
      ring

theorem count_range_eq (n j : Nat) :
    (List.range n).count j = if j < n then 1 else 0 := by
  induction n with
  | zero => simp
  | succ n ih =>
    have hs : List.count j [n] = if n = j then 1 else 0 := by
      simp [List.count_cons]
    rw [List.range_succ, List.count_append, ih, hs]
    split_ifs <;> omega

theorem weightedCount_eq_zero (x : Nat) (l : List Nat) (h : x ∉ l) :
    weightedCount x l = 0 := by
  induction l with
  | nil => rfl
  | cons c rest ih =>
    simp only [List.mem_cons, not_or] at h
    have hc : ¬(c = x) := fun h2 => h.1 h2.symm
    simp [weightedCount, hc, ih h.2]

theorem weightedCount_range (n j : Nat) (h : j < n) :
    weightedCount j (List.range n) = n - j := by
  induction n with
  | zero => omega
  | succ n ih =>
    rw [List.range_succ, weightedCount_append, count_range_eq]
    by_cases hj : j < n
    · have hne : ¬(n = j) := by omega
      simp [ih hj, hj, weightedCount, hne]
      omega
    · have hjn : j = n := by omega
      subst hjn
      rw [weightedCount_eq_zero j (List.range j) (by simp)]
      simp [weightedCount]

/-- C9: on a model that was never deferred, every `wait` call re-notifies
the entire wait list, so after registering the callbacks `0, …, n-1` with
`n` successive `wait` calls, the `i`-th registered callback (1-based,
identifier `i - 1`) has been invoked `n - i + 1` times. -/
theorem model_wait_renotification (n i : Nat) (h1 : 1 ≤ i) (h2 : i ≤ n) :
    ((waitSeq (Model.new none) (List.range n)).2).count (i - 1)
      = n - i + 1 := by
  rw [waitSeq_count (List.range n) (Model.new none) rfl (i - 1)]
  have hcb : (Model.new none).callbacks = [] := rfl
  rw [hcb, weightedCount_range n (i - 1) (by omega)]
  simp
  omega

/-- Witness for C9: with three `wait` calls on a fresh model, the first
registered callback has been invoked three times. -/
theorem model_wait_renotification_witness :
    ((waitSeq (Model.new none) (List.range 3)).2).count 0 = 3 :=
  model_wait_renotification 3 1 (by decide) (by decide)

theorem bucketAt_replicate_none {F : Type} (k j : Nat) :
    bucketAt (List.replicate k (none : Option (List F))) j = none := by
  induction k generalizing j with
  | zero => rfl
  | succ k ih =>
    cases j with
    | zero => rfl
    | succ j => exact ih j

theorem bucketAt_append_replicate {F : Type} (l : List (Option (List F)))
    (k j : Nat) : bucketAt (l ++ List.replicate k none) j = bucketAt l j := by
  induction l generalizing j with
  | nil =>
    cases j with
    | zero => simpa using bucketAt_replicate_none k 0
    | succ j => simpa using bucketAt_replicate_none k (j + 1)
  | cons b rest ih =>
    cases j with
    | zero => rfl
    | succ j => exact ih j

theorem bucketAt_set_self {F : Type} (l : List (Option (List F))) (i : Nat)
    (x : Option (List F)) (h : i < l.length) : bucketAt (l.set i x) i = x := by
  induction l generalizing i with
  | nil => simp at h
  | cons b rest ih =>
    cases i with
    | zero => rfl
    | succ i => exact ih i (by simpa using h)

theorem bucketAt_set_other {F : Type} (l : List (Option (List F))) (i j : Nat)
    (x : Option (List F)) (h : i ≠ j) :
    bucketAt (l.set i x) j = bucketAt l j := by
  induction l generalizing i j with
  | nil => rfl
  | cons b rest ih =>
    cases i with
    | zero =>
      cases j with
      | zero => exact absurd rfl h
      | succ j => rfl
    | succ i =>
      cases j with
      | zero => rfl
      | succ j => exact ih i j (fun hh => h (by rw [hh]))

theorem bucketAt_length_self {F : Type} (l : List (Option (List F))) :
    bucketAt l l.length = none := by
  induction l with
  | nil => rfl
  | cons b rest ih => exact ih

theorem set_append_singleton {F : Type} (l : List (Option (List F)))
    (x y : Option (List F)) : (l ++ [x]).set l.length y = l ++ [y] := by
  induction l with
  | nil => rfl
  | cons b rest ih =>
    show b :: ((rest ++ [x]).set rest.length y) = b :: (rest ++ [y])
    rw [ih]

theorem foldl_append_join {F : Type} (bs : List (Option (List F))) :
    ∀ acc : List F, bs.foldl (fun a b => a ++ b.getD []) acc
      = acc ++ (bs.map (fun b => b.getD [])).flatten := by
  induction bs with
  | nil => intro acc; simp
  | cons b rest ih =>
    intro acc
    simp [List.foldl_cons, ih, List.append_assoc]

/-- C10: `Module#filter(f, order)` appends `f` to the bucket at the given
order index, defaulting to the end of the array; the flattened execution
list concatenates the buckets in ascending index order (and distributes
over array concatenation), so filters with a lower order value run before
filters with a higher one, and filters sharing an order value run in
registration order. -/
theorem module_filter_ordering {F : Type} (fs fs2 : List (Option (List F)))
    (f : F) (o i : Nat) :
    (bucketAt (filterAdd fs f (some o)) i
      = if i = o then some ((bucketAt fs o).getD [] ++ [f])
        else bucketAt fs i) ∧
    (filterAdd fs f none = fs ++ [some [f]]) ∧
    (flattenFilters fs = (fs.map (fun b => b.getD [])).flatten) ∧
    (flattenFilters (fs ++ fs2) = flattenFilters fs ++ flattenFilters fs2) := by
  refine ⟨?_, ?_, ?_, ?_⟩
  · simp only [filterAdd, Option.getD_some]
    by_cases hio : i = o
    · subst hio
      rw [bucketAt_set_self]
      · simp
      · simp only [List.length_append, List.length_replicate]
        omega
    · rw [bucketAt_set_other _ o i _ (fun hh => hio hh.symm),
        bucketAt_append_replicate]
      simp [hio]
  · simp only [filterAdd, Option.getD_none]
    have h1 : fs.length + 1 - fs.length = 1 := by omega
    rw [h1]
    have h2 : List.replicate 1 (none : Option (List F)) = [none] := rfl
    rw [h2, bucketAt_length_self, set_append_singleton]
    simp
  · simpa using foldl_append_join fs []
  · simp only [flattenFilters]
    rw [foldl_append_join, foldl_append_join, foldl_append_join]
    simp [List.map_append, List.flatten_append]

theorem mmInv_nil : mmInv [] := by
  intro d hd
  simp at hd

theorem mmInv_step (st : List ModDesc) (e : MMEvent) (h : mmInv st) :
    mmInv (mmStep st e) := by
  cases e with
  | register cp ty =>
    intro d hd
    rw [mmStep] at hd
    rcases List.mem_append.1 hd with h1 | h2
    · exact h d h1
    · have hd2 : d = freshDesc cp ty := by simpa using h2
      subst hd2
      cases ty <;> simp [freshDesc]
  | request p =>
    intro d hd
    rw [mmStep] at hd
    rcases List.mem_map.1 hd with ⟨d0, hd0, hmap⟩
    have h0 := h d0 hd0
    by_cases hc : (strStarts d0.contextPath p && !d0.initialized) = true
    · rw [if_pos hc] at hmap
      subst hmap
      have hini : d0.initialized = false := by
        have hc2 := hc
        simp only [Bool.and_eq_true] at hc2
        simpa using hc2.2
      constructor
      · intro hex
        have h1 := h0.1 hex
        have hcnt : d0.initCount = 0 := by
          rcases h1 with ⟨hle, hiff⟩
          have : ¬ d0.initCount = 1 := fun hh => by
            have := hiff.2 hh
            rw [hini] at this
            exact Bool.false_ne_true this
          omega
        simp [hcnt]
      · intro hws
        have h2 := h0.2 hws
        rw [hini] at h2
        simp at h2
        simp [h2]
    · rw [if_neg hc] at hmap
      subst hmap
      exact h0

theorem mmInv_run (es : List MMEvent) : ∀ (st : List ModDesc),
    mmInv st → mmInv (mmRun st es) := by
  induction es with
  | nil => intro st h; simpa [mmRun] using h
  | cons e rest ih =>
    intro st h
    simpa [mmRun] using ih (mmStep st e) (mmInv_step st e h)

theorem mm_no_match_express (es : List MMEvent) :
    ∀ (st : List ModDesc) (d : ModDesc), d ∈ mmRun st es →
      d.serverType = ServerType.express →
      (∀ e ∈ es, requestMatches d.contextPath e = false) →
      d ∈ st ∨ (d.initCount = 0 ∧ d.initialized = false) := by
  induction es with
  | nil =>
    intro st d hd _ _
    exact Or.inl (by simpa [mmRun] using hd)
  | cons e rest ih =>
    intro st d hd hex hno
    have hd2 : d ∈ mmRun (mmStep st e) rest := by simpa [mmRun] using hd
    have hno2 : ∀ e2 ∈ rest, requestMatches d.contextPath e2 = false :=
      fun e2 he2 => hno e2 (by simp [he2])
    rcases ih (mmStep st e) d hd2 hex hno2 with hmem | hz
    · cases e with
      | register cp ty =>
        rw [mmStep] at hmem
        rcases List.mem_append.1 hmem with h1 | h2
        · exact Or.inl h1
        · have hd3 : d = freshDesc cp ty := by simpa using h2
          right
          rw [hd3] at hex
          simp [freshDesc] at hex
          rw [hd3]
          simp [freshDesc, hex]
      | request p =>
        have hnq : strStarts d.contextPath p = false := by
          have := hno (MMEvent.request p) (by simp)
          simpa [requestMatches] using this
        rw [mmStep] at hmem
        rcases List.mem_map.1 hmem with ⟨d0, hd0, hmap⟩
        by_cases hc : (strStarts d0.contextPath p && !d0.initialized) = true
        · rw [if_pos hc] at hmap
          have hcp : d0.contextPath = d.contextPath := by
            rw [← hmap]
          have hc2 := hc
          simp only [Bool.and_eq_true] at hc2
          have hst := hc2.1
          rw [hcp, hnq] at hst
          exact absurd hst (by simp)
        · rw [if_neg hc] at hmap
          subst hmap
          exact Or.inl hd0
    · exact Or.inr hz

theorem mm_preserve (es : List MMEvent) :
    ∀ (st : List ModDesc) (i : Nat) (d : ModDesc), st.get? i = some d →
      ∃ d2, (mmRun st es).get? i = some d2 ∧
        d2.contextPath = d.contextPath ∧ d2.serverType = d.serverType ∧
        (d.initialized = true → d2.initialized = true) := by
  induction es with
  | nil =>
    intro st i d h
    exact ⟨d, by simpa [mmRun] using h, rfl, rfl, fun h2 => h2⟩
  | cons e rest ih =>
    intro st i d h
    have hstep : ∃ d1, (mmStep st e).get? i = some d1 ∧
        d1.contextPath = d.contextPath ∧ d1.serverType = d.serverType ∧
        (d.initialized = true → d1.initialized = true) := by
      cases e with
      | register cp ty =>
        have hlt : i < st.length := by
          rcases List.get?_eq_some.1 h with ⟨hl, _⟩
          exact hl
        refine ⟨d, ?_, rfl, rfl, fun h2 => h2⟩
        rw [mmStep, List.get?_append hlt]
        exact h
      | request p =>
        rw [mmStep]
        refine ⟨_, by rw [List.get?_map, h]; rfl, ?_, ?_, ?_⟩ <;>
          by_cases hc : (strStarts d.contextPath p && !d.initialized) = true <;>
            simp [hc]
    obtain ⟨d1, h1, hcp1, hty1, hin1⟩ := hstep
    obtain ⟨d2, h2, hcp2, hty2, hin2⟩ := ih (mmStep st e) i d1 h1
    exact ⟨d2, by simpa [mmRun] using h2, hcp2.trans hcp1, hty2.trans hty1,
      fun hh => hin2 (hin1 hh)⟩

theorem mm_request_initializes (st : List ModDesc) (p : String) (d : ModDesc)
    (hd : d ∈ mmStep st (MMEvent.request p))
    (hm : strStarts d.contextPath p = true) : d.initialized = true := by
  rw [mmStep] at hd
  rcases List.mem_map.1 hd with ⟨d0, hd0, hmap⟩
  by_cases hc : (strStarts d0.contextPath p && !d0.initialized) = true
  · rw [if_pos hc] at hmap
    rw [← hmap]
  · rw [if_neg hc] at hmap
    subst hmap
    cases hini : d0.initialized with
    | false => exact absurd (by simp [hm, hini]) hc
    | true => rfl

/-- C5 (amended): Express modules are lazily initialized on the first
request whose path starts with the module's context path — `init` runs at
most once, never before a matching request, the `initialized` flag equals
"init has run", it is permanently true afterwards, and a matching request
leaves the module initialized.  WebSocket modules, by contrast, are
initialized eagerly at registration with their flag left false, so the
first matching request initializes them a second time. -/
theorem moduleManager_lazy_init (es : List MMEvent) :
    (∀ d ∈ mmRun [] es,
      (d.serverType = ServerType.express →
        d.initCount ≤ 1 ∧ (d.initialized = true ↔ d.initCount = 1)) ∧
      (d.serverType = ServerType.websocket →
        d.initCount = if d.initialized then 2 else 1)) ∧
    (∀ d ∈ mmRun [] es, d.serverType = ServerType.express →
      (∀ e ∈ es, requestMatches d.contextPath e = false) →
      d.initCount = 0) ∧
    (∀ (es2 : List MMEvent) (i : Nat) (d : ModDesc),
      (mmRun [] es).get? i = some d → d.initialized = true →
      ∃ d2, (mmRun (mmRun [] es) es2).get? i = some d2 ∧
        d2.initialized = true) ∧
    (∀ (p : String) (d : ModDesc),
      d ∈ mmStep (mmRun [] es) (MMEvent.request p) →
      strStarts d.contextPath p = true → d.initialized = true) := by
  refine ⟨mmInv_run es [] mmInv_nil, ?_, ?_, ?_⟩
  · intro d hd hex hno
    rcases mm_no_match_express es [] d hd hex hno with h | h
    · simp at h
    · exact h.1
  · intro es2 i d h hinit
    obtain ⟨d2, h2, _, _, himp⟩ := mm_preserve es2 (mmRun [] es) i d h
    exact ⟨d2, h2, himp hinit⟩
  · intro p d hd hm
    exact mm_request_initializes (mmRun [] es) p d hd hm

/-- Witness for C5: after registering an Express module at `/app` and one
matching request, its description is initialized with `init` run exactly
once. -/
theorem moduleManager_lazy_init_witness :
    ((⟨"/app", ServerType.express, true, 1⟩ : ModDesc).initCount ≤ 1) ∧
    ((⟨"/app", ServerType.express, true, 1⟩ : ModDesc).initialized = true ↔
      (⟨"/app", ServerType.express, true, 1⟩ : ModDesc).initCount = 1) :=
  ((moduleManager_lazy_init
      [MMEvent.register "/app" ServerType.express,
       MMEvent.request "/app/home"]).1
    ⟨"/app", ServerType.express, true, 1⟩ (by decide)).1 rfl

/-- Counterexample for C5 as stated: a WebSocket module registered at
`/ws` has been initialized once although no request ever arrived, and a
later matching request initializes it a second time. -/
theorem moduleManager_websocket_eager_counterexample :
    ((mmRun [] [MMEvent.register "/ws" ServerType.websocket]).map
        ModDesc.initCount = [1]) ∧
    ([MMEvent.register "/ws" ServerType.websocket].filter isRequestEvent
        = []) ∧
    ((mmRun [] [MMEvent.register "/ws" ServerType.websocket,
        MMEvent.request "/ws/chat"]).map ModDesc.initCount = [2]) := by
  decide

/-- C6 (amended): registering a route with path `p` stores the anchored
pattern `^p$`, and an endpoint validates a request exactly when the
request's pathname with the first occurrence of the module's context path
removed (or `/` if the result is empty) matches that pattern; when the
pathname starts with the context path, this is exactly removal of that
prefix. -/
theorem route_matching (test : String → String → Bool)
    (p cp rest pathname : String) :
    ((registerRouteEndpoint p).pattern = "^" ++ p ++ "$") ∧
    (expressValidate test (registerRouteEndpoint p) cp pathname
      = test ("^" ++ p ++ "$")
          (if replaceFirst pathname cp "" = "" then "/"
           else replaceFirst pathname cp "")) ∧
    (expressValidate test (registerRouteEndpoint p) cp (cp ++ rest)
      = test ("^" ++ p ++ "$") (if rest = "" then "/" else rest)) := by
  refine ⟨rfl, rfl, ?_⟩
  show test (registerRouteEndpoint p).pattern
      (if replaceFirst (cp ++ rest) cp "" = "" then "/"
       else replaceFirst (cp ++ rest) cp "") = _
  rw [replaceFirst_at_start]
  rfl

/-- Counterexample for C6 as stated: with context path `/app` and request
pathname `/x/app`, the code removes the first occurrence of the context
path (yielding `/x`, which the route `/x` matches), while removal of a
context-path prefix would leave `/x/app` unmatched. -/
theorem route_matching_replace_counterexample :
    expressValidate literalRegexTest (registerRouteEndpoint "/x")
        "/app" "/x/app" = true ∧
    prefixRemovalValidate literalRegexTest (registerRouteEndpoint "/x")
        "/app" "/x/app" = false := by
  decide

theorem find_update (l : List (String × JsVal)) (k k2 : String) (v : JsVal) :
    (l.map (fun p => if p.1 == k then (k, v) else p)).find?
        (fun p => p.1 == k2)
      = if k2 = k then
          (if l.any (fun p => p.1 == k) then some (k, v) else none)
        else l.find? (fun p => p.1 == k2) := by
  induction l with
  | nil => by_cases hk : k2 = k <;> simp [hk]
  | cons q rest ih =>
    simp only [List.map_cons]
    by_cases hqk : q.1 = k
    · have hup : (if (q.1 == k) = true then (k, v) else q) = (k, v) := by
        simp [hqk]
      rw [hup]
      by_cases hk : k2 = k
      · subst hk
        rw [List.find?_cons_of_pos _ (by simp)]
        have hany : (q :: rest).any (fun p => p.1 == k2) = true := by
          simp [List.any_cons, hqk]
        simp [hany]
      · have hkk : (k == k2) = false :=
          beq_eq_false_iff_ne.2 (fun hh => hk hh.symm)
        have hq2 : (q.1 == k2) = false :=
          beq_eq_false_iff_ne.2 (fun hh => hk (by rw [← hh, hqk]))
        rw [List.find?_cons_of_neg _ (by simp [hkk]), ih, if_neg hk,
          List.find?_cons_of_neg _ (by simp [hq2]), if_neg hk]
    · have hup : (if (q.1 == k) = true then (k, v) else q) = q := by
        simp [hqk]
      rw [hup]
      by_cases hk : k2 = k
      · subst hk
        have hq2 : (q.1 == k2) = false := beq_eq_false_iff_ne.2 hqk
        rw [List.find?_cons_of_neg _ (by simp [hq2]), ih]
        simp only [List.any_cons, eq_self_iff_true, if_true, hq2,
          Bool.false_or]
      · by_cases hq2 : q.1 = k2
        · rw [List.find?_cons_of_pos _ (by simp [hq2]), if_neg hk,
            List.find?_cons_of_pos _ (by simp [hq2])]
        · rw [List.find?_cons_of_neg _ (by simp [hq2]), ih, if_neg hk,
            List.find?_cons_of_neg _ (by simp [hq2]), if_neg hk]

theorem map_fst_update (l : List (String × JsVal)) (k : String) (v : JsVal) :
    (l.map (fun p => if p.1 == k then (k, v) else p)).map Prod.fst
      = l.map Prod.fst := by
  induction l with
  | nil => rfl
  | cons q rest ih =>
    simp only [List.map_cons]
    rw [ih]
    by_cases hq : q.1 = k
    · simp [hq]
    · simp [hq]

theorem keys_setProp_of_hasProp (o : Obj) (k : String) (v : JsVal)
    (h : o.hasProp k = true) :
    (o.setProp k v).props.map Prod.fst = o.props.map Prod.fst := by
  unfold Obj.setProp
  rw [if_pos h]
  exact map_fst_update o.props k v

theorem any_keys (l : List (String × JsVal)) (k : String) :
    l.any (fun p => p.1 == k) = (l.map Prod.fst).any (fun s => s == k) := by
  induction l with
  | nil => rfl
  | cons p rest ih => simp [List.any_cons, ih]

theorem hasProp_eq_keys (o : Obj) (k : String) :
    o.hasProp k = (o.props.map Prod.fst).any (fun s => s == k) :=
  any_keys o.props k

theorem getProp_setProp (o : Obj) (k k2 : String) (v : JsVal) :
    (o.setProp k v).getProp k2 = if k2 = k then some v else o.getProp k2 := by
  cases hhas : o.hasProp k with
  | true =>
    unfold Obj.setProp Obj.getProp
    rw [if_pos hhas, find_update]
    have hany : o.props.any (fun p => p.1 == k) = true := hhas
    by_cases hk : k2 = k <;> simp [hk, hany]
  | false =>
    have hset : (o.setProp k v).props = o.props ++ [(k, v)] := by
      unfold Obj.setProp
      simp [hhas]
    have hnone : o.props.find? (fun p => p.1 == k) = none := by
      rw [List.find?_eq_none]
      intro x hx
      intro hbeq
      have h2 : o.hasProp k = true :=
        List.any_eq_true.2 ⟨x, hx, hbeq⟩
      rw [hhas] at h2
      exact Bool.false_ne_true h2
    unfold Obj.getProp
    rw [hset, List.find?_append]
    by_cases hk : k2 = k
    · subst hk
      rw [hnone]
      simp
    · have hkk : (k == k2) = false :=
        beq_eq_false_iff_ne.2 (fun hh => hk hh.symm)
      have hsing : ([(k, v)].find? (fun p => p.1 == k2)) = none := by
        simp [List.find?_cons, hkk]
      cases hfp : o.props.find? (fun p => p.1 == k2) <;>
        simp [hfp, hsing, hk]

theorem keys_bindStep (h : Obj) (p : String × JsVal) :
    (bindStep h p).props.map Prod.fst = h.props.map Prod.fst := by
  unfold bindStep
  cases hh : h.hasProp p.1 with
  | true =>
    rw [if_pos rfl]
    exact keys_setProp_of_hasProp h p.1 p.2 hh
  | false => simp [hh]

theorem hasProp_bindStep (h : Obj) (p : String × JsVal) (k2 : String) :
    (bindStep h p).hasProp k2 = h.hasProp k2 := by
  rw [hasProp_eq_keys, hasProp_eq_keys, keys_bindStep]

theorem getProp_bindStep (h : Obj) (k : String) (v : JsVal) (k2 : String) :
    (bindStep h (k, v)).getProp k2
      = if k2 = k ∧ h.hasProp k = true then some v else h.getProp k2 := by
  unfold bindStep
  cases hh : h.hasProp k with
  | true =>
    rw [if_pos rfl, getProp_setProp]
    by_cases hk : k2 = k <;> simp [hk]
  | false =>
    rw [if_neg Bool.false_ne_true]
    simp

theorem keys_bindFold (l : List (String × JsVal)) : ∀ h : Obj,
    (l.foldl bindStep h).props.map Prod.fst = h.props.map Prod.fst := by
  induction l with
  | nil => intro h; rfl
  | cons p rest ih =>
    intro h
    rw [List.foldl_cons, ih, keys_bindStep]

theorem bind_fold_getProp (l : List (String × JsVal)) : ∀ (h : Obj),
    (l.map Prod.fst).Nodup → ∀ k2 : String,
    (l.foldl bindStep h).getProp k2
      = if (Obj.mk l).hasProp k2 = true ∧ h.hasProp k2 = true
        then (Obj.mk l).getProp k2 else h.getProp k2 := by
  induction l with
  | nil =>
    intro h _ k2
    simp [Obj.hasProp]
  | cons q rest ih =>
    obtain ⟨k, v⟩ := q
    intro h hnd k2
    have hnd1 : (k :: rest.map Prod.fst).Nodup := by
      rw [List.map_cons] at hnd
      exact hnd
    have hnd2 : (rest.map Prod.fst).Nodup := (List.nodup_cons.1 hnd1).2
    have hknotin : k ∉ rest.map Prod.fst := (List.nodup_cons.1 hnd1).1
    rw [List.foldl_cons, ih (bindStep h (k, v)) hnd2 k2, hasProp_bindStep,
      getProp_bindStep]
    by_cases hk : k2 = k
    · subst hk
      have hr : (Obj.mk rest).hasProp k2 = false := by
        rw [hasProp_eq_keys]
        rw [List.any_eq_false]
        intro s hs
        simp only [beq_iff_eq]
        intro heq
        exact hknotin (heq ▸ hs)
      have hcons : (Obj.mk ((k2, v) :: rest)).hasProp k2 = true := by
        unfold Obj.hasProp
        simp
      have hgcons : (Obj.mk ((k2, v) :: rest)).getProp k2 = some v := by
        unfold Obj.getProp
        simp [List.find?_cons]
      rw [hr, hcons, hgcons]
      by_cases hh : h.hasProp k2 = true <;> simp [hh]
    · have hkk : (k == k2) = false :=
        beq_eq_false_iff_ne.2 (fun hh => hk hh.symm)
      have hcons : (Obj.mk ((k, v) :: rest)).hasProp k2
          = (Obj.mk rest).hasProp k2 := by
        unfold Obj.hasProp
        simp [List.any_cons, hkk]
      have hgcons : (Obj.mk ((k, v) :: rest)).getProp k2
          = (Obj.mk rest).getProp k2 := by
        unfold Obj.getProp
        simp [List.find?_cons, hkk]
      rw [hcons, hgcons]
      simp [hk]

theorem keys_nodup_setProp (o : Obj) (k : String) (v : JsVal)
    (h : (o.props.map Prod.fst).Nodup) :
    ((o.setProp k v).props.map Prod.fst).Nodup := by
  cases hh : o.hasProp k with
  | true =>
    rw [keys_setProp_of_hasProp o k v hh]
    exact h
  | false =>
    have hp : (o.setProp k v).props = o.props ++ [(k, v)] := by
      unfold Obj.setProp
      simp [hh]
    have hk : k ∉ o.props.map Prod.fst := by
      intro hmem
      have h2 : o.hasProp k = true := by
        rw [hasProp_eq_keys]
        exact List.any_eq_true.2 ⟨k, hmem, by simp⟩
      rw [hh] at h2
      exact Bool.false_ne_true h2
    rw [hp, List.map_append]
    simp [List.nodup_append, h, hk]

theorem keys_nodup_setFold (l : List (String × JsVal)) : ∀ (dst : Obj),
    (dst.props.map Prod.fst).Nodup →
    ((l.foldl (fun d p => d.setProp p.1 p.2) dst).props.map Prod.fst).Nodup := by
  induction l with
  | nil => intro dst h; exact h
  | cons p rest ih =>
    intro dst h
    rw [List.foldl_cons]
    exact ih _ (keys_nodup_setProp dst p.1 p.2 h)

theorem keys_nodup_mergeFields (ps : List (Option Obj)) :
    ((mergeFields ps).props.map Prod.fst).Nodup := by
  suffices haux : ∀ (l : List (Option Obj)) (acc : Obj),
      (acc.props.map Prod.fst).Nodup →
      ((l.foldl
          (fun acc po =>
            match po with
            | some o => extendObj acc o
            | none => acc) acc).props.map Prod.fst).Nodup by
    exact haux ps Obj.empty (by simp [Obj.empty])
  intro l
  induction l with
  | nil => intro acc h; exact h
  | cons po rest ih =>
    intro acc h
    rw [List.foldl_cons]
    cases po with
    | none => exact ih acc h
    | some o => exact ih _ (keys_nodup_setFold o.props acc h)

/-- C7: `ObjectDataBinder#bind` performs a shallow own-property copy
restricted to the host's existing properties: the host keeps exactly its
own property names (in order; no property is added or removed, and the
mutated host itself is the return value), and a property's value becomes
the merged parameters' value exactly when both the merged parameters and
the host own that name, every other property being unchanged. -/
theorem objectDataBinder_bind_spec (host : Obj) (ps : List (Option Obj)) :
    ((objectDataBind host ps).props.map Prod.fst
        = host.props.map Prod.fst) ∧
    (∀ k : String, (objectDataBind host ps).getProp k
      = if (mergeFields ps).hasProp k = true ∧ host.hasProp k = true
        then (mergeFields ps).getProp k else host.getProp k) := by
  refine ⟨keys_bindFold (mergeFields ps).props host, ?_⟩
  intro k
  have h := bind_fold_getProp (mergeFields ps).props host
    (keys_nodup_mergeFields ps) k
  simpa [objectDataBind] using h

/-- C3: `CommandController#handle` constructs a fresh command per request
through the factory, binds (under the default options) the route
parameters, request parameters and request body onto it — cookies are not
bound — invokes `execute` exactly once, and wraps the result: a `Model`
is paired with the parsed view name, a `Redirect` yields a `ModelAndView`
whose redirect is set, and any other value is wrapped in a fresh `Model`.
`MessageController#handle` likewise constructs the command per message,
binds the message, invokes `execute` exactly once, and returns a `Model`
result unchanged while wrapping any other result in a fresh `Model`. -/
theorem controller_handle_binding_wrapping
    (createCommand : Request → Obj) (execute : Obj → CmdResult)
    (req : Request) (vn : Option String)
    (mcreate : Obj → Obj) (mexec : Obj → CmdResult) (msg : Obj) :
    ((commandHandle defaultOpts createCommand execute req vn).boundCmd
      = wmBind (wmBind (wmBind (createCommand req) req.params) req.query)
          req.body) ∧
    ((commandHandle defaultOpts createCommand execute req vn).events
      = [HEv.createCmd, HEv.execCmd]) ∧
    ((commandHandle defaultOpts createCommand execute req vn).events.count
        HEv.execCmd = 1) ∧
    (∀ m : Model,
      execute (commandHandle defaultOpts createCommand execute req
          vn).boundCmd = CmdResult.model m →
      (commandHandle defaultOpts createCommand execute req vn).mav
        = ⟨some (parseViewName vn Obj.empty), m, none⟩) ∧
    (∀ r : Redirect,
      execute (commandHandle defaultOpts createCommand execute req
          vn).boundCmd = CmdResult.redirect r →
      (commandHandle defaultOpts createCommand execute req vn).mav
        = ⟨none, Model.new none, some r⟩) ∧
    (∀ v : JsVal,
      execute (commandHandle defaultOpts createCommand execute req
          vn).boundCmd = CmdResult.other v →
      (commandHandle defaultOpts createCommand execute req vn).mav
        = ⟨some (parseViewName vn Obj.empty), Model.new (some (MData.js v)),
           none⟩) ∧
    ((messageHandle mcreate mexec msg).boundCmd
      = objectDataBind (mcreate msg) [some msg]) ∧
    ((messageHandle mcreate mexec msg).events.count HEv.execCmd = 1) ∧
    (∀ m : Model, mexec (messageHandle mcreate mexec msg).boundCmd
        = CmdResult.model m → (messageHandle mcreate mexec msg).result = m) ∧
    (∀ r : Redirect, mexec (messageHandle mcreate mexec msg).boundCmd
        = CmdResult.redirect r →
      (messageHandle mcreate mexec msg).result
        = Model.new (some (MData.rd r))) ∧
    (∀ v : JsVal, mexec (messageHandle mcreate mexec msg).boundCmd
        = CmdResult.other v →
      (messageHandle mcreate mexec msg).result
        = Model.new (some (MData.js v))) := by
  have hmav : (commandHandle defaultOpts createCommand execute req vn).mav
      = match execute ((commandHandle defaultOpts createCommand execute req
          vn).boundCmd) with
        | CmdResult.model mm =>
          (⟨some (parseViewName vn Obj.empty), mm, none⟩ : ModelAndView)
        | CmdResult.redirect r => ⟨none, Model.new none, some r⟩
        | CmdResult.other v =>
          ⟨some (parseViewName vn Obj.empty), Model.new (some (MData.js v)),
           none⟩ := rfl
  have hres : (messageHandle mcreate mexec msg).result
      = match mexec ((messageHandle mcreate mexec msg).boundCmd) with
        | CmdResult.model m => m
        | CmdResult.redirect r => Model.new (some (MData.rd r))
        | CmdResult.other v => Model.new (some (MData.js v)) := rfl
  refine ⟨rfl, rfl, rfl, ?_, ?_, ?_, rfl, rfl, ?_, ?_, ?_⟩
  · intro m hm
    rw [hmav, hm]
  · intro r hm
    rw [hmav, hm]
  · intro v hm
    rw [hmav, hm]
  · intro m hm
    rw [hres, hm]
  · intro r hm
    rw [hres, hm]
  · intro v hm
    rw [hres, hm]

/-- Witness for C3 at a concrete command returning a plain value: the
result is wrapped in a fresh model paired with the parsed view name. -/
theorem controller_handle_binding_wrapping_witness :
    (commandHandle defaultOpts (fun _ => Obj.mk [("a", JsVal.vnull)])
        (fun _ => CmdResult.other (JsVal.vnum 5))
        ⟨none, none, none, none⟩ (some "v")).mav
      = ⟨some (parseViewName (some "v") Obj.empty),
         Model.new (some (MData.js (JsVal.vnum 5))), none⟩ :=
  (controller_handle_binding_wrapping (fun _ => Obj.mk [("a", JsVal.vnull)])
      (fun _ => CmdResult.other (JsVal.vnum 5)) ⟨none, none, none, none⟩
      (some "v") (fun o => o) (fun _ => CmdResult.other JsVal.vnull)
      Obj.empty).2.2.2.2.2.1 (JsVal.vnum 5) rfl

/-- C8: a `ModelAndView` constructed without a model holds a fresh
`new Model()` (the model field is always a real model), `getRedirect`
returns null until `sendRedirect` is invoked, and afterwards it returns
exactly the redirect last passed to `sendRedirect`. -/
theorem modelAndView_invariants (vn : Option String) (m : Model)
    (mav : ModelAndView) (r r2 : Option Redirect) :
    ((ModelAndView.new vn none).model = Model.new none) ∧
    ((ModelAndView.new vn (some m)).model = m) ∧
    ((ModelAndView.new vn none).viewName = vn) ∧
    ((ModelAndView.new vn none).getRedirect = none) ∧
    ((ModelAndView.new vn (some m)).getRedirect = none) ∧
    ((mav.sendRedirect r).getRedirect = r) ∧
    (((mav.sendRedirect r).sendRedirect r2).getRedirect = r2) ∧
    ((mav.sendRedirect r).model = mav.model) := by
  simp [ModelAndView.new, ModelAndView.sendRedirect, ModelAndView.getRedirect]

end WebModules
